import Mathlib

/-!
Verification of the optimizing middle-end passes of `pythran/optimizations.py`:
constant folding (`ConstantFolding`), forward substitution
(`ForwardSubstitution` / `_LazyRemover`), dead code elimination
(`DeadCodeElimination`) and full loop unrolling (`LoopFullUnrolling`).

The Python AST fragment touched by those passes is embedded shallowly:
expressions and statements become inductive types, the analyses the passes
consume (use-def chains, laziness, purity, constant-expression sets,
node counts, break/continue detection) become explicit parameters or, when
their implementation lives outside the sources at hand, definitions modelled
from the specification.
-/

namespace Pythran

/-- Runtime values handled by `ConstantFolding.to_ast`.  The source accepts
`int`, `long`, `float` and `complex` with a single uniform treatment
(`ast.Num(value)`); the embedding collapses those four numeric kinds into one
integer-carrying constructor, which loses no structure relevant to the
folding logic.  A dict value is a list of key/value pairs. -/
inductive Value : Type
  | numV (n : Int)
  | boolV (b : Bool)
  | strV (s : String)
  | listV (elts : List Value)
  | tupleV (elts : List Value)
  | setV (elts : List Value)
  | dictV (pairs : List (Value × Value))

/-- Expression contexts of the Python AST: `ast.Load`, `ast.Store`,
`ast.Param`. -/
inductive Ctx : Type
  | load
  | store
  | param

/-- The only binary operator the embedded fragment needs. -/
inductive Op : Type
  | add

/-- Embedded Python expressions.  `name` carries a `tag` modelling node
identity: the analyses of the source (use-def chains, the `U` and `D` node
lists handed to `_LazyRemover`) are keyed by object identity of AST nodes,
which a structural embedding represents by unique tags on occurrences.
`none_` models the Python `None` value that `ast.NodeTransformer` leaves in
an expression slot when a visitor returns `None` (reachable in
`_LazyRemover.visit_Name` only when a use is visited before its definition
has been captured). -/
inductive Expr : Type
  | num (n : Int)
  | str (s : String)
  | name (tag : Nat) (id : String) (ctx : Ctx)
  | attribute (value : Expr) (attr : String) (ctx : Ctx)
  | binOp (left : Expr) (op : Op) (right : Expr)
  | listE (elts : List Expr)
  | tupleE (elts : List Expr)
  | setE (elts : List Expr)
  | dictE (keys : List Expr) (values : List Expr)
  | yieldE (value : Expr)
  | none_

/-- Embedded Python statements.  The `omp` flag on a `for` loop models the
presence of a `metadata.get(node, OMPDirective)` annotation, an out-of-band
side table keyed by node identity in the source. -/
inductive Stmt : Type
  | assign (targets : List Expr) (value : Expr)
  | exprStmt (value : Expr)
  | passStmt
  | forStmt (omp : Bool) (target : Expr) (iter : Expr) (body : List Stmt)
  | breakStmt
  | continueStmt
  | ret (value : Expr)

/-- A function definition: `ast.FunctionDef` restricted to the fields the
passes traverse (`args` holds the `Param`-context name nodes). -/
structure FunctionDef : Type where
  fname : String
  args : List Expr
  body : List Stmt

/-- Source constant `ConstantFolding.MAX_LEN = 2 ** 8`: maximum length of
folded sequences. -/
def MAX_LEN : Nat := 2 ^ 8

/-- Source method `ConstantFolding.to_ast`: convert an evaluated value back
into an AST
node.  Numbers become `ast.Num`; booleans become the attribute access
`__builtin__.True` / `__builtin__.False`; strings become `ast.Str`;
containers strictly below `MAX_LEN` are converted element-wise; anything
else raises `ConversionError`, embedded as `Except.error ()`.  The source
converts all dict keys and then all dict values; the embedding converts
pair-wise, which yields the same node on success and the same
(information-free) error on failure. -/
def to_ast : Value → Except Unit Expr
  | .numV n => .ok (.num n)
  | .boolV b =>
      .ok (.attribute (.name 0 "__builtin__" .load)
            (if b then ("True") else ("False")) .load)
  | .strV s => .ok (.str s)
  | .listV elts =>
      if elts.length < MAX_LEN then do
        .ok (.listE (← to_astList elts))
      else .error ()
  | .tupleV elts =>
      if elts.length < MAX_LEN then do
        .ok (.tupleE (← to_astList elts))
      else .error ()
  | .setV elts =>
      if elts.length < MAX_LEN then do
        .ok (.setE (← to_astList elts))
      else .error ()
  | .dictV pairs =>
      if pairs.length < MAX_LEN then do
        let kvs ← to_astPairs pairs
        .ok (.dictE (kvs.map Prod.fst) (kvs.map Prod.snd))
      else .error ()
where
  to_astList : List Value → Except Unit (List Expr)
    | [] => .ok []
    | v :: vs => do .ok ((← to_ast v) :: (← to_astList vs))
  to_astPairs : List (Value × Value) → Except Unit (List (Expr × Expr))
    | [] => .ok []
    | (k, v) :: ps => do .ok ((← to_ast k, ← to_ast v) :: (← to_astPairs ps))

/-- Modelled from the spec: the Python `eval` call of
`ConstantFolding.generic_visit` ("attempt isolated evaluation of just that
subtree against the environment", expressions "evaluate identically to
runtime semantics").  The interpreter covers the embedded fragment: numeric,
string and boolean literals (`__builtin__.True` / `__builtin__.False`),
container displays, and `+` on numbers, strings and lists.  Names, yields
and the `none_` marker are not evaluable constants and fail, as does any
ill-typed operation; failure is `Except.error ()`, the evaluation exception
caught by the engine.  Set-element deduplication and ordering are abstracted
away (a set display evaluates to its elements verbatim); a dict display
pairs keys with values position-wise. -/
def evalConst : Expr → Except Unit Value
  | .num n => .ok (.numV n)
  | .str s => .ok (.strV s)
  | .attribute (.name _ ("__builtin__") _) ("True") _ => .ok (.boolV true)
  | .attribute (.name _ ("__builtin__") _) ("False") _ => .ok (.boolV false)
  | .attribute _ _ _ => .error ()
  | .name _ _ _ => .error ()
  | .binOp l .add r => do
      match (← evalConst l), (← evalConst r) with
      | .numV a, .numV b => .ok (.numV (a + b))
      | .strV a, .strV b => .ok (.strV (a ++ b))
      | .listV a, .listV b => .ok (.listV (a ++ b))
      | .tupleV a, .tupleV b => .ok (.tupleV (a ++ b))
      | _, _ => .error ()
  | .listE elts => do .ok (.listV (← evalConstList elts))
  | .tupleE elts => do .ok (.tupleV (← evalConstList elts))
  | .setE elts => do .ok (.setV (← evalConstList elts))
  | .dictE keys values => do
      let ks ← evalConstList keys
      let vs ← evalConstList values
      if ks.length = vs.length then .ok (.dictV (ks.zip vs)) else .error ()
  | .yieldE _ => .error ()
  | .none_ => .error ()
where
  evalConstList : List Expr → Except Unit (List Value)
    | [] => .ok []
    | e :: es => do .ok ((← evalConst e) :: (← evalConstList es))

/-- Modelled from the spec: the `ConstantExpressions` analysis consumed by
`ConstantFolding` ("nodes classified as constant expressions:
compile-time provably side-effect-free and input-independent").  Literals
and the `__builtin__.True` / `__builtin__.False` attributes are constant;
a compound of constant parts is constant; names, yields and the `none_`
marker are not. -/
def isConstExpr : Expr → Bool
  | .num _ => true
  | .str _ => true
  | .name _ _ _ => false
  | .attribute (.name _ ("__builtin__") _) attr _ =>
      attr == "True" || attr == "False"
  | .attribute _ _ _ => false
  | .binOp l _ r => isConstExpr l && isConstExpr r
  | .listE elts => isConstExprList elts
  | .tupleE elts => isConstExprList elts
  | .setE elts => isConstExprList elts
  | .dictE keys values => isConstExprList keys && isConstExprList values
  | .yieldE _ => false
  | .none_ => false
where
  isConstExprList : List Expr → Bool
    | [] => true
    | e :: es => isConstExpr e && isConstExprList es

/-- One folding attempt of `ConstantFolding.generic_visit` at a single node:
if the node is in the constant-expression set, evaluate it and convert the
value back to an AST node; on success return the new node, on any exception
(evaluation error or `ConversionError`) fall back to `folded`, the result of
`Transformation.generic_visit` (the node with its children visited).  Nodes
outside the set also take the `folded` fallback. -/
def constFoldStep (ce : Expr → Bool) (orig folded : Expr) : Expr :=
  if ce orig then
    match (evalConst orig).bind to_ast with
    | .ok newNode => newNode
    | .error _ => folded
  else folded

mutual

/-- The tree traversal of `ConstantFolding`: `generic_visit` is the only visitor,
so every node takes `constFoldStep`, whose fallback visits the children with
the same traversal. -/
def constFold (ce : Expr → Bool) : Expr → Expr
  | .num n => constFoldStep ce (.num n) (.num n)
  | .str s => constFoldStep ce (.str s) (.str s)
  | .name t i c => constFoldStep ce (.name t i c) (.name t i c)
  | .attribute v a c =>
      constFoldStep ce (.attribute v a c) (.attribute (constFold ce v) a c)
  | .binOp l op r =>
      constFoldStep ce (.binOp l op r)
        (.binOp (constFold ce l) op (constFold ce r))
  | .listE elts =>
      constFoldStep ce (.listE elts) (.listE (constFoldList ce elts))
  | .tupleE elts =>
      constFoldStep ce (.tupleE elts) (.tupleE (constFoldList ce elts))
  | .setE elts =>
      constFoldStep ce (.setE elts) (.setE (constFoldList ce elts))
  | .dictE keys values =>
      constFoldStep ce (.dictE keys values)
        (.dictE (constFoldList ce keys) (constFoldList ce values))
  | .yieldE v => constFoldStep ce (.yieldE v) (.yieldE (constFold ce v))
  | .none_ => constFoldStep ce .none_ .none_

/-- Child visiting of a list-valued AST field under `constFold`. -/
def constFoldList (ce : Expr → Bool) : List Expr → List Expr
  | [] => []
  | e :: es => constFold ce e :: constFoldList ce es

end

/-- The fallback `Transformation.generic_visit` alone (children visited, the node itself
kept): the fallback taken by `ConstantFolding.generic_visit` when the fold
attempt fails or the node is not a constant expression. -/
def constFoldChildren (ce : Expr → Bool) : Expr → Expr
  | .num n => .num n
  | .str s => .str s
  | .name t i c => .name t i c
  | .attribute v a c => .attribute (constFold ce v) a c
  | .binOp l op r => .binOp (constFold ce l) op (constFold ce r)
  | .listE elts => .listE (constFoldList ce elts)
  | .tupleE elts => .tupleE (constFoldList ce elts)
  | .setE elts => .setE (constFoldList ce elts)
  | .dictE keys values =>
      .dictE (constFoldList ce keys) (constFoldList ce values)
  | .yieldE v => .yieldE (constFold ce v)
  | .none_ => .none_

mutual

/-- Modelled from the spec: the `NodeCount` analysis gathered by
`LoopFullUnrolling.visit_For` ("the node-count metric"), counting the AST
nodes of an expression subtree. -/
def nodeCountE : Expr → Nat
  | .num _ => 1
  | .str _ => 1
  | .name _ _ _ => 1
  | .attribute v _ _ => 1 + nodeCountE v
  | .binOp l _ r => 1 + nodeCountE l + nodeCountE r
  | .listE elts => 1 + nodeCountEs elts
  | .tupleE elts => 1 + nodeCountEs elts
  | .setE elts => 1 + nodeCountEs elts
  | .dictE keys values => 1 + nodeCountEs keys + nodeCountEs values
  | .yieldE v => 1 + nodeCountE v
  | .none_ => 1

/-- Node count of a list of expressions. -/
def nodeCountEs : List Expr → Nat
  | [] => 0
  | e :: es => nodeCountE e + nodeCountEs es

end

mutual

/-- Modelled from the spec: the `NodeCount` analysis on a statement
subtree. -/
def nodeCountS : Stmt → Nat
  | .assign targets value => 1 + nodeCountEs targets + nodeCountE value
  | .exprStmt value => 1 + nodeCountE value
  | .passStmt => 1
  | .forStmt _ target iter body =>
      1 + nodeCountE target + nodeCountE iter + nodeCountSs body
  | .breakStmt => 1
  | .continueStmt => 1
  | .ret value => 1 + nodeCountE value

/-- Node count of a list of statements. -/
def nodeCountSs : List Stmt → Nat
  | [] => 0
  | s :: ss => nodeCountS s + nodeCountSs ss

end

mutual

/-- Modelled from the spec: the `HasBreak` analysis ("static analysis shows
the body contains a break construct"). -/
def hasBreak : Stmt → Bool
  | .breakStmt => true
  | .forStmt _ _ _ body => hasBreakList body
  | _ => false

/-- Analysis `HasBreak` over a statement list. -/
def hasBreakList : List Stmt → Bool
  | [] => false
  | s :: ss => hasBreak s || hasBreakList ss

end

mutual

/-- Modelled from the spec: the `HasContinue` analysis ("static analysis
shows the body contains a continue construct"). -/
def hasContinue : Stmt → Bool
  | .continueStmt => true
  | .forStmt _ _ _ body => hasContinueList body
  | _ => false

/-- Analysis `HasContinue` over a statement list. -/
def hasContinueList : List Stmt → Bool
  | [] => false
  | s :: ss => hasContinue s || hasContinueList ss

end

/-- Source constant `LoopFullUnrolling.MAX_NODE_COUNT = 512`. -/
def MAX_NODE_COUNT : Nat := 512

/-- Python's `reduce(list.__add__, ·)`: left fold of list concatenation with
no initial value, a `TypeError` (embedded as `Except.error ()`) on an empty
sequence. -/
def reduceConcat : List (List Stmt) → Except Unit (List Stmt)
  | [] => .error ()
  | x :: xs => .ok (xs.foldl (· ++ ·) x)

mutual

/-- Source method `LoopFullUnrolling.visit_For` together with the default visitor of the
pass: children are visited first (`generic_visit`), then — when the iterable
is a literal list — the OpenMP, break and continue guards and the
`node_count * len(elts) < MAX_NODE_COUNT` size guard decide whether the loop
is replaced by the concatenation, one literal element after the other, of an
assignment of the element to the loop target followed by a (deep) copy of
the visited body.  A visitor returning a list of statements is spliced into
the enclosing statement sequence, so the result is a statement list.
`HasBreak`/`HasContinue` are gathered on each statement of the visited body
and `NodeCount` on the whole visited loop node, exactly as in the source. -/
def unrollStmt : Stmt → Except Unit (List Stmt)
  | .forStmt omp target iter body => do
      let body' ← unrollBody body
      let node := Stmt.forStmt omp target iter body'
      let has_break := body'.any hasBreak
      let has_cont := body'.any hasContinue
      let node_count := nodeCountS node
      match iter with
      | .listE elts =>
          let isvalid := !(omp || has_break || has_cont)
          let total_count := node_count * elts.length
          let issmall := decide (total_count < MAX_NODE_COUNT)
          if isvalid && issmall then
            reduceConcat (elts.map
              (fun elt => Stmt.assign [target] elt :: body'))
          else .ok [node]
      | _ => .ok [node]
  | s => .ok [s]

/-- Visiting a statement list under `LoopFullUnrolling`: each statement's
replacement list is spliced in place. -/
def unrollBody : List Stmt → Except Unit (List Stmt)
  | [] => .ok []
  | s :: ss => do .ok ((← unrollStmt s) ++ (← unrollBody ss))

end

/-- Actions tagging the occurrence nodes of a use-def chain graph:
define (`"D"`), use (`"U"`), use-and-redefine (`"UD"`). -/
inductive UDAction : Type
  | U
  | D
  | UD
  deriving DecidableEq

/-- Source method `DeadCodeElimination.used_target`: a name target is kept when its
use-def chain (`used_def_chain[node.id]`, embedded as the list of occurrence
actions per variable name) has a nonzero count of occurrences whose action
is `"U"` or `"UD"`; any non-name target is kept unconditionally. -/
def used_target (udc : String → List UDAction) : Expr → Bool
  | .name _ id _ =>
      let is_use : UDAction → Bool := fun a => a = .U || a = .UD
      let use_count := ((udc id).filter is_use).length
      use_count != 0
  | _ => true

/-- Source method `DeadCodeElimination.visit_Assign`: drop unused targets; keep the
statement when targets remain, else a `pass` for a pure right-hand side and
a bare expression statement otherwise.  The purity set `PureExpressions` is
an analysis outside the sources at hand and enters as the predicate
`pureE`. -/
def dceAssign (udc : String → List UDAction) (pureE : Expr → Bool)
    (targets : List Expr) (value : Expr) : Stmt :=
  let targets' := targets.filter (used_target udc)
  if targets'.isEmpty then
    if pureE value then .passStmt else .exprStmt value
  else .assign targets' value

/-- Source method `DeadCodeElimination.visit_Expr`: a bare expression statement that is in
the purity set and whose expression is not a yield becomes `pass`.  The
membership test of the source is on the statement node itself, embedded as
the predicate `pureS`. -/
def dceExpr (pureS : Stmt → Bool) (value : Expr) : Stmt :=
  if pureS (.exprStmt value) && !(match value with
      | .yieldE _ => true
      | _ => false) then
    .passStmt
  else .exprStmt value

mutual

/-- The `DeadCodeElimination` traversal: `visit_Assign` and `visit_Expr` are
its only visitors, every other statement keeps its shape with its nested
statements visited. -/
def dceStmt (udc : String → List UDAction) (pureE : Expr → Bool)
    (pureS : Stmt → Bool) : Stmt → Stmt
  | .assign targets value => dceAssign udc pureE targets value
  | .exprStmt value => dceExpr pureS value
  | .forStmt omp target iter body =>
      .forStmt omp target iter (dceStmts udc pureE pureS body)
  | s => s

/-- Pass `DeadCodeElimination` on a statement list. -/
def dceStmts (udc : String → List UDAction) (pureE : Expr → Bool)
    (pureS : Stmt → Bool) : List Stmt → List Stmt
  | [] => []
  | s :: ss => dceStmt udc pureE pureS s :: dceStmts udc pureE pureS ss

end

/-- Does this expression match a given `D` node?  The source compares with
`self.D in node.targets` / `node.targets.remove(self.D)`, both by node
identity; identity of name occurrences is embedded as the tag. -/
def isDName (D : Nat) : Expr → Bool
  | .name tag _ _ => tag = D
  | _ => false

mutual

/-- Source method `_LazyRemover.visit_Name` extended to the default child traversal of
the transformer: a name occurrence listed in `U` is replaced by the current
`capture` (the Python `None` held before the defining assignment has been
seen is the `none_` marker); every other node keeps its shape with its
children visited. -/
def lrExpr (U : List Nat) (cap : Option Expr) : Expr → Expr
  | .name tag id ctx =>
      if tag ∈ U then
        match cap with
        | some c => c
        | none => .none_
      else .name tag id ctx
  | .num n => .num n
  | .str s => .str s
  | .attribute v a c => .attribute (lrExpr U cap v) a c
  | .binOp l op r => .binOp (lrExpr U cap l) op (lrExpr U cap r)
  | .listE elts => .listE (lrExprList U cap elts)
  | .tupleE elts => .tupleE (lrExprList U cap elts)
  | .setE elts => .setE (lrExprList U cap elts)
  | .dictE keys values =>
      .dictE (lrExprList U cap keys) (lrExprList U cap values)
  | .yieldE v => .yieldE (lrExpr U cap v)
  | .none_ => .none_

/-- The `_LazyRemover` child traversal over a list-valued expression field. -/
def lrExprList (U : List Nat) (cap : Option Expr) : List Expr → List Expr
  | [] => []
  | e :: es => lrExpr U cap e :: lrExprList U cap es

end

mutual

/-- One statement under `_LazyRemover`, threading the `capture` state in
traversal order.  `visit_Assign` first visits its children
(`generic_visit`), then — when the `D` node is among the targets — captures
the (visited) assigned value, replaces the whole statement by `pass` if it
had exactly one target, and otherwise removes `D` from the target list.
All other statements only have their children visited. -/
def lrStmt (U : List Nat) (D : Nat) (cap : Option Expr) :
    Stmt → Option Expr × Stmt
  | .assign targets value =>
      let targets' := lrExprList U cap targets
      let value' := lrExpr U cap value
      if targets'.any (isDName D) then
        if targets'.length = 1 then (some value', .passStmt)
        else (some value', .assign (targets'.eraseP (isDName D)) value')
      else (cap, .assign targets' value')
  | .exprStmt value => (cap, .exprStmt (lrExpr U cap value))
  | .passStmt => (cap, .passStmt)
  | .forStmt omp target iter body =>
      let target' := lrExpr U cap target
      let iter' := lrExpr U cap iter
      let (cap', body') := lrStmts U D cap body
      (cap', .forStmt omp target' iter' body')
  | .breakStmt => (cap, .breakStmt)
  | .continueStmt => (cap, .continueStmt)
  | .ret value => (cap, .ret (lrExpr U cap value))

/-- The `_LazyRemover` traversal over a statement list, threading the capture state from
statement to statement. -/
def lrStmts (U : List Nat) (D : Nat) (cap : Option Expr) :
    List Stmt → Option Expr × List Stmt
  | [] => (cap, [])
  | s :: ss =>
      let (cap', s') := lrStmt U D cap s
      let (cap'', ss') := lrStmts U D cap' ss
      (cap'', s' :: ss')

end

/-- Running `_LazyRemover(ctx, U, D).visit(node)` on a function definition: the
argument names are visited first (with the capture still unset), then the
body in order. -/
def lazyRemoverFD (U : List Nat) (D : Nat) (fd : FunctionDef) :
    FunctionDef :=
  { fname := fd.fname
    args := lrExprList U none fd.args
    body := (lrStmts U D none fd.body).2 }

/-- The laziness metric of `LazynessAnalysis`: a count or the float
infinity. -/
inductive Laziness : Type
  | fin (n : Nat)
  | inf
  deriving DecidableEq

/-- One occurrence node of a use-def chain graph as consumed by
`ForwardSubstitution.visit_FunctionDef`: the graph node action
attribute and its name attribute (the AST name node). -/
structure UDOcc : Type where
  action : UDAction
  nameNode : Expr

/-- The per-variable facts coming from the `UsedDefChain`, `LazynessAnalysis`
and `Literals` analyses (all outside the sources at hand): the occurrence
nodes of the variable's chain, its laziness metric, and whether the variable
is in the literals set. -/
structure VarInfo : Type where
  vname : String
  occs : List UDOcc
  lazyness : Laziness
  isLiteral : Bool

/-- The `get(action)` helper of `visit_FunctionDef`: the name nodes of the
occurrences with a given action. -/
def getAction (a : UDAction) (occs : List UDOcc) : List Expr :=
  (occs.filter (fun o => o.action = a)).map (fun o => o.nameNode)

/-- The context of an AST node, for `isinstance(D[0].ctx, ast.Param)`. -/
def ctxOf : Expr → Option Ctx
  | .name _ _ c => some c
  | .attribute _ _ c => some c
  | _ => none

/-- Is this occurrence node a function parameter? -/
def isParamNode (e : Expr) : Bool :=
  match ctxOf e with
  | some .param => true
  | _ => false

instance : Inhabited Expr := ⟨.none_⟩

/-- The tags of a list of name occurrence nodes (node identity). -/
def tagsOf (es : List Expr) : List Nat :=
  es.filterMap fun e =>
    match e with
    | .name tag _ _ => some tag
    | _ => none

/-- The eligibility condition of `ForwardSubstitution.visit_FunctionDef` for
one variable: (two chain nodes and laziness 1) or (finite laziness and a
literal), and one `D` occurrence, no `UD` occurrence, and a non-parameter
`D` occurrence. -/
def fsCond (info : VarInfo) : Bool :=
  ((info.occs.length = 2 && info.lazyness = .fin 1) ||
     (info.lazyness != .inf && info.isLiteral)) &&
  (let D := getAction .D info.occs
   D.length = 1 && (getAction .UD info.occs).length = 0 &&
     !(isParamNode (D.headI)))

/-- One iteration of the `for name, udgraph in used_def_chain.iteritems()`
loop of `visit_FunctionDef`: when the variable is eligible, run
`_LazyRemover` with the `U` occurrence nodes and the single `D` occurrence
node over the function; otherwise leave the function unchanged. -/
def fsStep (info : VarInfo) (fd : FunctionDef) : FunctionDef :=
  if fsCond info then
    lazyRemoverFD (tagsOf (getAction .U info.occs))
      ((tagsOf (getAction .D info.occs)).headI) fd
  else fd

/-- Source method `ForwardSubstitution.visit_FunctionDef`: fold `fsStep` over the
per-variable facts of the use-def chain map. -/
def forwardSubstitutionFD (infos : List VarInfo) (fd : FunctionDef) :
    FunctionDef :=
  infos.foldl (fun n i => fsStep i n) fd

/-- The claim's criterion for dropping an assignment target: a target name
whose use-def chain has zero occurrences tagged Use or UD. -/
def zeroUseName (udc : String → List UDAction) : Expr → Bool
  | .name _ id _ => (udc id).countP (fun a => a = .U || a = .UD) = 0
  | _ => false

/-- The claim's description of dead code elimination on an assignment: drop
exactly the zero-use target names; replace a fully-dropped assignment by a
no-op when the right-hand side is pure and by a bare expression statement
evaluating the right-hand side otherwise. -/
def dceAssignSpec (udc : String → List UDAction) (pureE : Expr → Bool)
    (targets : List Expr) (value : Expr) : Stmt :=
  let kept := targets.filter (fun t => !zeroUseName udc t)
  if kept.isEmpty then
    if pureE value then .passStmt else .exprStmt value
  else .assign kept value

/-- The claim's eligibility condition for forward substitution of one
variable: (a) exactly two chain occurrences and laziness 1, or (b) finite
laziness and membership in the literals set — together with exactly one
Define occurrence, zero UD occurrences, and no Define occurrence that is a
function parameter. -/
def fsCondSpec (info : VarInfo) : Prop :=
  ((info.occs.length = 2 ∧ info.lazyness = .fin 1) ∨
    (info.lazyness ≠ .inf ∧ info.isLiteral = true)) ∧
  (getAction .D info.occs).length = 1 ∧
  (getAction .UD info.occs).length = 0 ∧
  ∀ d ∈ getAction .D info.occs, isParamNode d = false

mutual

/-- The claim's substitution: every qualifying Use occurrence (a name node
listed in `U`) is replaced by a copy of the defining right-hand side `c`;
in the value-semantics embedding a deep copy is the expression itself. -/
def substUsesE (U : List Nat) (c : Expr) : Expr → Expr
  | .name tag id ctx => if tag ∈ U then c else .name tag id ctx
  | .num n => .num n
  | .str s => .str s
  | .attribute v a cx => .attribute (substUsesE U c v) a cx
  | .binOp l op r => .binOp (substUsesE U c l) op (substUsesE U c r)
  | .listE elts => .listE (substUsesEList U c elts)
  | .tupleE elts => .tupleE (substUsesEList U c elts)
  | .setE elts => .setE (substUsesEList U c elts)
  | .dictE keys values =>
      .dictE (substUsesEList U c keys) (substUsesEList U c values)
  | .yieldE v => .yieldE (substUsesE U c v)
  | .none_ => .none_

/-- The claim's substitution over a list of expressions. -/
def substUsesEList (U : List Nat) (c : Expr) : List Expr → List Expr
  | [] => []
  | e :: es => substUsesE U c e :: substUsesEList U c es

end

mutual

/-- The claim's substitution over a statement. -/
def substUsesS (U : List Nat) (c : Expr) : Stmt → Stmt
  | .assign targets value =>
      .assign (substUsesEList U c targets) (substUsesE U c value)
  | .exprStmt v => .exprStmt (substUsesE U c v)
  | .passStmt => .passStmt
  | .forStmt omp t i body =>
      .forStmt omp (substUsesE U c t) (substUsesE U c i)
        (substUsesSList U c body)
  | .breakStmt => .breakStmt
  | .continueStmt => .continueStmt
  | .ret v => .ret (substUsesE U c v)

/-- The claim's substitution over a statement list. -/
def substUsesSList (U : List Nat) (c : Expr) : List Stmt → List Stmt
  | [] => []
  | s :: ss => substUsesS U c s :: substUsesSList U c ss

end

mutual

/-- No name occurrence of this expression is listed in `U`. -/
def noUTags (U : List Nat) : Expr → Bool
  | .name tag _ _ => !decide (tag ∈ U)
  | .num _ => true
  | .str _ => true
  | .attribute v _ _ => noUTags U v
  | .binOp l _ r => noUTags U l && noUTags U r
  | .listE elts => noUTagsList U elts
  | .tupleE elts => noUTagsList U elts
  | .setE elts => noUTagsList U elts
  | .dictE keys values => noUTagsList U keys && noUTagsList U values
  | .yieldE v => noUTags U v
  | .none_ => true

/-- Predicate `noUTags` over a list of expressions. -/
def noUTagsList (U : List Nat) : List Expr → Bool
  | [] => true
  | e :: es => noUTags U e && noUTagsList U es

end

mutual

/-- No assignment anywhere in this statement has the `D` node among its
targets. -/
def noDTarget (D : Nat) : Stmt → Bool
  | .assign targets _ => targets.all (fun t => !isDName D t)
  | .exprStmt _ => true
  | .passStmt => true
  | .forStmt _ _ _ body => noDTargetList D body
  | .breakStmt => true
  | .continueStmt => true
  | .ret _ => true

/-- Predicate `noDTarget` over a statement list. -/
def noDTargetList (D : Nat) : List Stmt → Bool
  | [] => true
  | s :: ss => noDTarget D s && noDTargetList D ss

end

mutual

/-- The claim's well-formedness condition on folded output: every literal
container node anywhere in the expression has strictly fewer than `MAX_LEN`
elements. -/
def smallContainers : Expr → Bool
  | .num _ => true
  | .str _ => true
  | .name _ _ _ => true
  | .attribute v _ _ => smallContainers v
  | .binOp l _ r => smallContainers l && smallContainers r
  | .listE elts =>
      decide (elts.length < MAX_LEN) && smallContainersList elts
  | .tupleE elts =>
      decide (elts.length < MAX_LEN) && smallContainersList elts
  | .setE elts =>
      decide (elts.length < MAX_LEN) && smallContainersList elts
  | .dictE keys values =>
      decide (keys.length < MAX_LEN) && decide (values.length < MAX_LEN) &&
        smallContainersList keys && smallContainersList values
  | .yieldE v => smallContainers v
  | .none_ => true

/-- Predicate `smallContainers` over a list of expressions. -/
def smallContainersList : List Expr → Bool
  | [] => true
  | e :: es => smallContainers e && smallContainersList es

end

/-- Is this node a bare name reference? -/
def isNameE : Expr → Bool
  | .name _ _ _ => true
  | _ => false

mutual

/-- The `ConstantFolding` traversal over statements: statement nodes are
never in the constant-expression set (only expressions are evaluable), so
`generic_visit` always keeps the statement and visits its children. -/
def constFoldStmt (ce : Expr → Bool) : Stmt → Stmt
  | .assign targets value =>
      .assign (constFoldList ce targets) (constFold ce value)
  | .exprStmt v => .exprStmt (constFold ce v)
  | .passStmt => .passStmt
  | .forStmt omp t i body =>
      .forStmt omp (constFold ce t) (constFold ce i)
        (constFoldStmts ce body)
  | .breakStmt => .breakStmt
  | .continueStmt => .continueStmt
  | .ret v => .ret (constFold ce v)

/-- Pass `ConstantFolding` over a statement list. -/
def constFoldStmts (ce : Expr → Bool) : List Stmt → List Stmt
  | [] => []
  | st :: sts => constFoldStmt ce st :: constFoldStmts ce sts

end

/-! ## Theorems -/

example : to_ast (.listV [.numV 1, .boolV true]) =
    .ok (.listE [.num 1,
      .attribute (.name 0 "__builtin__" .load) "True" .load]) := rfl

set_option maxRecDepth 4000 in
example : to_ast (.listV (List.replicate 256 (.numV 0))) = .error () := by
  rw [to_ast]
  simp [MAX_LEN]

example : constFold isConstExpr (.binOp (.num 1) .add (.num 3)) = .num 4 :=
  rfl

example :
    constFold isConstExpr
      (.yieldE (.binOp (.num 1) .add (.num 3))) = .yieldE (.num 4) := rfl

/-- The doctest of `LoopFullUnrolling`:
`for j in [1,2,3]: i += j` becomes six statements (augmented assignment is
rendered here as a plain assignment `i = i + j`, which the pass copies
verbatim). -/
example :
    unrollStmt
      (.forStmt false (.name 0 "j" .store) (.listE [.num 1, .num 2, .num 3])
        [.assign [.name 1 "i" .store]
          (.binOp (.name 2 "i" .load) .add (.name 3 "j" .load))]) =
    .ok
      [.assign [.name 0 "j" .store] (.num 1),
       .assign [.name 1 "i" .store]
         (.binOp (.name 2 "i" .load) .add (.name 3 "j" .load)),
       .assign [.name 0 "j" .store] (.num 2),
       .assign [.name 1 "i" .store]
         (.binOp (.name 2 "i" .load) .add (.name 3 "j" .load)),
       .assign [.name 0 "j" .store] (.num 3),
       .assign [.name 1 "i" .store]
         (.binOp (.name 2 "i" .load) .add (.name 3 "j" .load))] := rfl

example :
    dceAssign (fun _ => [.D]) (fun _ => true)
      [.name 0 "a" .store] (.listE [.num 2, .num 3]) = .passStmt := rfl

example :
    dceAssign (fun _ => [.D]) (fun _ => false)
      [.name 0 "a" .store] (.listE [.num 2, .num 3]) =
    .exprStmt (.listE [.num 2, .num 3]) := rfl

/-- The first doctest of `ForwardSubstitution`:
`def foo(): a = [2, 3]; print a` rewrites to `def foo(): pass; print [2, 3]`
(the `print` statement of the source is rendered as a bare expression
statement). -/
example :
    forwardSubstitutionFD
      [⟨"a", [⟨.D, .name 1 "a" .store⟩, ⟨.U, .name 2 "a" .load⟩],
        .fin 1, false⟩]
      ⟨"foo", [],
        [.assign [.name 1 "a" .store] (.listE [.num 2, .num 3]),
         .exprStmt (.name 2 "a" .load)]⟩ =
    ⟨"foo", [], [.passStmt, .exprStmt (.listE [.num 2, .num 3])]⟩ := rfl

theorem used_target_eq_not_zeroUseName (udc : String → List UDAction)
    (t : Expr) : used_target udc t = !zeroUseName udc t := by
  have key : ∀ n : Nat, (n != 0) = !decide (n = 0) := by
    intro n; cases n <;> rfl
  cases t <;> try rfl
  case name tag id ctx =>
    simp only [used_target, zeroUseName]
    rw [List.countP_eq_length_filter]
    exact key _

/-- C1: for every assignment statement visited by dead code elimination,
each target name whose use-def chain has zero Use/UD occurrences is dropped
from the target list; if every target is dropped, the statement becomes a
no-op when the right-hand side is pure and a bare expression statement
evaluating the right-hand side otherwise. -/
theorem dce_assign_drops_unused_targets (udc : String → List UDAction)
    (pureE : Expr → Bool) (targets : List Expr) (value : Expr) :
    dceAssign udc pureE targets value = dceAssignSpec udc pureE targets value := by
  unfold dceAssign dceAssignSpec
  have h : targets.filter (used_target udc) =
      targets.filter (fun t => !zeroUseName udc t) := by
    apply List.filter_congr
    intro t _
    exact used_target_eq_not_zeroUseName udc t
  rw [h]

/-- C9: dead code elimination replaces a bare expression statement by a
no-op exactly when the statement is in the pure-expression set and its
expression is not a yield construct, and returns it unchanged otherwise. -/
theorem dce_expr_pure_non_yield (pureS : Stmt → Bool) (value : Expr) :
    (dceExpr pureS value = .passStmt ↔
      pureS (.exprStmt value) = true ∧ ∀ e, value ≠ .yieldE e) ∧
    (¬(pureS (.exprStmt value) = true ∧ ∀ e, value ≠ .yieldE e) →
      dceExpr pureS value = .exprStmt value) := by
  unfold dceExpr
  cases hp : pureS (.exprStmt value) <;> cases value <;> simp_all

/-- Witness for C9 at a concrete input: a pure bare `yield 1` statement is
kept unchanged. -/
theorem dce_expr_pure_non_yield_witness :
    dceExpr (fun _ => true) (.yieldE (.num 1)) = .exprStmt (.yieldE (.num 1)) :=
  (dce_expr_pure_non_yield (fun _ => true) (.yieldE (.num 1))).2
    (by intro h; exact h.2 (.num 1) rfl)

/-- C10: dead code elimination never removes an assignment target that is
not a simple name node: with any such target present, the statement stays an
assignment whose target list still holds that target. -/
theorem dce_assign_keeps_non_name_targets (udc : String → List UDAction)
    (pureE : Expr → Bool) (targets : List Expr) (value : Expr) (t : Expr)
    (hmem : t ∈ targets) (hname : ∀ tag id ctx, t ≠ .name tag id ctx) :
    ∃ kept, dceAssign udc pureE targets value = .assign kept value ∧
      t ∈ kept := by
  have hkeep : used_target udc t = true := by
    cases t <;> simp [used_target]
    exact absurd rfl (hname _ _ _)
  have hmem' : t ∈ targets.filter (used_target udc) :=
    List.mem_filter.mpr ⟨hmem, hkeep⟩
  refine ⟨targets.filter (used_target udc), ?_, hmem'⟩
  unfold dceAssign
  have : ¬(targets.filter (used_target udc)).isEmpty := by
    intro h
    rw [List.isEmpty_iff] at h
    simp [h] at hmem'
  simp only [this, if_neg]
  simp_all

/-- Witness for C10 at a concrete input: an attribute target with an empty
use-def chain is kept and the assignment survives. -/
theorem dce_assign_keeps_non_name_targets_witness :
    ∃ kept,
      dceAssign (fun _ => []) (fun _ => true)
        [.attribute (.name 0 "o" .load) "f" .store] (.num 1) =
        .assign kept (.num 1) ∧
      (.attribute (.name 0 "o" .load) "f" .store) ∈ kept :=
  dce_assign_keeps_non_name_targets (fun _ => []) (fun _ => true)
    [.attribute (.name 0 "o" .load) "f" .store] (.num 1)
    (.attribute (.name 0 "o" .load) "f" .store)
    (by simp) (by intro tag id ctx h; cases h)

theorem fsCond_iff (info : VarInfo) : fsCond info = true ↔ fsCondSpec info := by
  unfold fsCond fsCondSpec
  cases hD : getAction .D info.occs with
  | nil => simp [hD]
  | cons d ds =>
    cases ds with
    | nil => simp [hD, bne]
    | cons d2 ds2 => simp [hD]

/-- C2: forward substitution runs the `_LazyRemover` rewrite for a variable
exactly under the claimed eligibility condition, and leaves the function
untouched for that variable whenever any part of the condition fails. -/
theorem forward_substitution_eligibility (info : VarInfo)
    (fd : FunctionDef) :
    (fsCondSpec info →
      fsStep info fd =
        lazyRemoverFD (tagsOf (getAction .U info.occs))
          ((tagsOf (getAction .D info.occs)).headI) fd) ∧
    (¬fsCondSpec info → fsStep info fd = fd) := by
  constructor
  · intro h
    unfold fsStep
    rw [if_pos ((fsCond_iff info).mpr h)]
  · intro h
    unfold fsStep
    rw [if_neg (fun hb => h ((fsCond_iff info).mp hb))]

/-- Witness for C2 at a concrete input: a variable with a `UD` occurrence is
rejected and the function is unchanged. -/
theorem forward_substitution_eligibility_witness :
    fsStep
      ⟨"a", [⟨.D, .name 1 "a" .store⟩, ⟨.UD, .name 2 "a" .load⟩], .fin 1,
        false⟩
      ⟨"foo", [], [.passStmt]⟩ = ⟨"foo", [], [.passStmt]⟩ :=
  (forward_substitution_eligibility
      ⟨"a", [⟨.D, .name 1 "a" .store⟩, ⟨.UD, .name 2 "a" .load⟩], .fin 1,
        false⟩
      ⟨"foo", [], [.passStmt]⟩).2
    (by
      intro h
      have := h.2.2.1
      simp [getAction, List.filter] at this)

theorem lrExpr_of_noUTags (U : List Nat) (cap : Option Expr) :
    (∀ e, noUTags U e = true → lrExpr U cap e = e) ∧
    (∀ es, noUTagsList U es = true → lrExprList U cap es = es) := by
  apply noUTags.mutual_induct (U := U) <;>
    intros <;> simp_all [noUTags, noUTagsList, lrExpr, lrExprList]

theorem lrExpr_some_eq_substUses (U : List Nat) (c : Expr) :
    (∀ e, lrExpr U (some c) e = substUsesE U c e) ∧
    (∀ es, lrExprList U (some c) es = substUsesEList U c es) := by
  apply substUsesE.mutual_induct (U := U) (c := c) <;>
    intros <;> simp_all [lrExpr, lrExprList, substUsesE, substUsesEList]

theorem substUsesEList_eq_map (U : List Nat) (c : Expr) :
    ∀ es, substUsesEList U c es = es.map (substUsesE U c)
  | [] => rfl
  | e :: es => by simp [substUsesEList, substUsesEList_eq_map U c es]

theorem substUsesSList_eq_map (U : List Nat) (c : Expr) :
    ∀ ss, substUsesSList U c ss = ss.map (substUsesS U c)
  | [] => rfl
  | s :: ss => by simp [substUsesSList, substUsesSList_eq_map U c ss]

theorem isDName_substUsesE (U : List Nat) (D : Nat) (c t : Expr)
    (hc : isDName D c = false) (ht : isDName D t = false) :
    isDName D (substUsesE U c t) = false := by
  cases t <;> try rfl
  case name tag id ctx =>
    simp only [substUsesE]
    by_cases h : tag ∈ U
    · simpa [h] using hc
    · simpa [h] using ht

theorem lrStmt_of_noDTarget (U : List Nat) (D : Nat) (c : Expr)
    (hc : isDName D c = false) :
    (∀ s, noDTarget D s = true →
      lrStmt U D (some c) s = (some c, substUsesS U c s)) ∧
    (∀ ss, noDTargetList D ss = true →
      lrStmts U D (some c) ss = (some c, substUsesSList U c ss)) := by
  apply noDTarget.mutual_induct (D := D)
  case case1 =>
    intro targets value hall
    simp only [noDTarget, List.all_eq_true] at hall
    have hany : (substUsesEList U c targets).any (isDName D) = false := by
      rw [substUsesEList_eq_map, List.any_eq_false]
      intro t' ht'
      rw [List.mem_map] at ht'
      obtain ⟨t, htm, rfl⟩ := ht'
      have ht : isDName D t = false := by simpa using hall t htm
      simp [isDName_substUsesE U D c t hc ht]
    simp only [lrStmt, hany, Bool.false_eq_true, if_false, substUsesS,
      (lrExpr_some_eq_substUses U c).1, (lrExpr_some_eq_substUses U c).2]
  case case4 =>
    intro omp target iter body ih h
    simp only [noDTarget] at h
    simp only [lrStmt, substUsesS, ih h,
      (lrExpr_some_eq_substUses U c).1]
  case case8 => intro _; simp [lrStmts, substUsesSList]
  case case9 =>
    intro s ss ih1 ih2 h
    simp only [noDTargetList, Bool.and_eq_true] at h
    simp [lrStmts, substUsesSList, ih1 h.1, ih2 h.2]
  all_goals
    intros
    simp [lrStmt, substUsesS, (lrExpr_some_eq_substUses U c).1]

/-- C3: when forward substitution fires, every qualifying Use occurrence is
replaced by a copy of the Define's right-hand side, the Define's name node
is removed from the defining assignment's target list, and a
single-target defining assignment becomes a `pass` no-op in place rather
than disappearing from the statement sequence. -/
theorem lazy_remover_mechanics (U : List Nat) (D : Nat)
    (targets : List Expr) (value : Expr) (rest : List Stmt)
    (hmem : targets.countP (isDName D) = 1)
    (htargets : noUTagsList U targets = true)
    (hvalue : noUTags U value = true)
    (hval : isDName D value = false)
    (hrest : noDTargetList D rest = true) :
    (lrStmts U D none (.assign targets value :: rest)).2 =
      (if targets.length = 1 then Stmt.passStmt
       else .assign (targets.eraseP (isDName D)) value)
      :: rest.map (substUsesS U value) := by
  have htl : lrExprList U none targets = targets :=
    (lrExpr_of_noUTags U none).2 targets htargets
  have hvl : lrExpr U none value = value :=
    (lrExpr_of_noUTags U none).1 value hvalue
  have hany : targets.any (isDName D) = true := by
    rw [List.any_eq_true]
    have hpos : 0 < targets.countP (isDName D) := by rw [hmem]; norm_num
    obtain ⟨t, htm, htp⟩ := List.countP_pos_iff.mp hpos
    exact ⟨t, htm, htp⟩
  have htail := (lrStmt_of_noDTarget U D value hval).2 rest hrest
  by_cases hlen : targets.length = 1 <;>
    simp [lrStmts, lrStmt, htl, hvl, hany, hlen, htail,
      substUsesSList_eq_map]

/-- Witness for C3 at the first `ForwardSubstitution` doctest:
`a = [2, 3]; print a` becomes `pass; print [2, 3]`. -/
theorem lazy_remover_mechanics_witness :
    (lrStmts [2] 1 none
      [.assign [.name 1 "a" .store] (.listE [.num 2, .num 3]),
       .exprStmt (.name 2 "a" .load)]).2 =
      [Stmt.passStmt, .exprStmt (.listE [.num 2, .num 3])] := by
  have h := lazy_remover_mechanics [2] 1 [.name 1 "a" .store]
    (.listE [.num 2, .num 3]) [.exprStmt (.name 2 "a" .load)]
    rfl rfl rfl rfl rfl
  simpa using h

theorem foldl_append_eq_flatten :
    ∀ (xs : List (List Stmt)) (x : List Stmt),
      xs.foldl (· ++ ·) x = x ++ xs.flatten
  | [], x => by simp
  | y :: ys, x => by
      simp only [List.foldl_cons, List.flatten_cons]
      rw [foldl_append_eq_flatten ys (x ++ y), List.append_assoc]

theorem reduceConcat_eq_flatten (x : List Stmt) (xs : List (List Stmt)) :
    reduceConcat (x :: xs) = .ok (x :: xs).flatten := by
  simp [reduceConcat, foldl_append_eq_flatten xs x]

/-- C4 (amended): for a for-loop over a nonempty literal list with no OpenMP
annotation, no break and no continue in the visited body, and with the
node count of the whole visited loop node (not just its body) times the
element count below the 512-node ceiling, the pass replaces the loop by the
in-order concatenation, over the elements, of an assignment of the element
to the loop target followed by a copy of the visited body. -/
theorem loop_full_unrolling_fires (omp : Bool) (target : Expr)
    (elts : List Expr) (body body' : List Stmt)
    (hbody : unrollBody body = .ok body')
    (homp : omp = false)
    (hbreak : body'.any hasBreak = false)
    (hcont : body'.any hasContinue = false)
    (hne : elts ≠ [])
    (hsmall :
      nodeCountS (.forStmt omp target (.listE elts) body') * elts.length <
        MAX_NODE_COUNT) :
    unrollStmt (.forStmt omp target (.listE elts) body) =
      .ok (elts.flatMap (fun elt => Stmt.assign [target] elt :: body')) := by
  subst homp
  rw [unrollStmt, hbody]
  simp only [Bind.bind, Except.bind]
  simp only [hbreak, hcont, Bool.or_false, Bool.not_false, Bool.false_or,
    decide_eq_true hsmall, Bool.and_self, if_true]
  obtain ⟨e, es, rfl⟩ : ∃ e es, elts = e :: es := by
    cases elts with
    | nil => exact absurd rfl hne
    | cons e es => exact ⟨e, es, rfl⟩
  rw [List.map_cons, reduceConcat_eq_flatten]
  rfl

/-- C4 counterexample: a loop over 30 literal elements whose body node count
times element count (60) is below the 512 ceiling is nevertheless left
unexpanded, because the source gathers `NodeCount` on the whole loop node
(count 35, total 1050), not on the body alone as the claim states. -/
theorem loop_full_unrolling_body_count_cex :
    (([Stmt.exprStmt (Expr.num 1)].any hasBreak = false ∧
       [Stmt.exprStmt (Expr.num 1)].any hasContinue = false) ∧
      nodeCountSs [Stmt.exprStmt (Expr.num 1)] *
        (List.replicate 30 (Expr.num 0)).length < MAX_NODE_COUNT) ∧
    unrollStmt
      (.forStmt false (.name 0 "i" .store)
        (.listE (List.replicate 30 (Expr.num 0)))
        [Stmt.exprStmt (Expr.num 1)]) =
      .ok [Stmt.forStmt false (.name 0 "i" .store)
        (.listE (List.replicate 30 (Expr.num 0)))
        [Stmt.exprStmt (Expr.num 1)]] ∧
    Except.ok [Stmt.forStmt false (.name 0 "i" .store)
        (.listE (List.replicate 30 (Expr.num 0)))
        [Stmt.exprStmt (Expr.num 1)]] ≠
      (Except.ok ((List.replicate 30 (Expr.num 0)).flatMap
          (fun elt => Stmt.assign [Expr.name 0 "i" Ctx.store] elt ::
            [Stmt.exprStmt (Expr.num 1)])) : Except Unit (List Stmt)) := by
  refine ⟨⟨⟨rfl, rfl⟩, by decide⟩, rfl, ?_⟩
  intro h
  have h1 := congrArg
    (fun x : Except Unit (List Stmt) =>
      match x with
      | .ok l => l.length
      | .error _ => 0) h
  simp at h1

/-- C5 (amended): a for-loop with an OpenMP annotation, or a break or a
continue in the visited body, or an over-ceiling node count, or a
non-literal-list iterable, is not expanded: the pass returns the single
loop node, its body already rewritten by the recursive child visit (so the
loop is byte-for-byte unchanged only when its body contains no nested
transformable loop). -/
theorem loop_full_unrolling_skips (omp : Bool) (target iter : Expr)
    (body body' : List Stmt)
    (hbody : unrollBody body = .ok body')
    (hguard : omp = true ∨ body'.any hasBreak = true ∨
      body'.any hasContinue = true ∨
      (∀ elts, iter ≠ .listE elts) ∨
      (∀ elts, iter = .listE elts →
        MAX_NODE_COUNT ≤ nodeCountS (.forStmt omp target iter body') *
          elts.length)) :
    unrollStmt (.forStmt omp target iter body) =
      .ok [.forStmt omp target iter body'] := by
  rw [unrollStmt, hbody]
  simp only [Bind.bind, Except.bind]
  rcases hguard with h | h | h | h | h
  · subst h
    cases iter <;> simp
  · cases iter <;> simp [h]
  · cases iter <;> simp [h]
  · cases iter <;> try rfl
    case listE elts => exact absurd rfl (h elts)
  · cases iter <;> try rfl
    case listE elts =>
      have hnlt : ¬(nodeCountS (Stmt.forStmt omp target (.listE elts) body') *
          elts.length < MAX_NODE_COUNT) := not_lt.mpr (h elts rfl)
      simp [decide_eq_false hnlt]

/-- Witness for the amended C4 at the `LoopFullUnrolling` doctest loop
shape: `for j in [1,2,3]: x = j` unrolls into six statements. -/
theorem loop_full_unrolling_fires_witness :
    unrollStmt
      (.forStmt false (.name 0 "j" .store) (.listE [.num 1, .num 2, .num 3])
        [.assign [.name 1 "x" .store] (.name 2 "j" .load)]) =
      .ok [Stmt.assign [.name 0 "j" .store] (.num 1),
        .assign [.name 1 "x" .store] (.name 2 "j" .load),
        .assign [.name 0 "j" .store] (.num 2),
        .assign [.name 1 "x" .store] (.name 2 "j" .load),
        .assign [.name 0 "j" .store] (.num 3),
        .assign [.name 1 "x" .store] (.name 2 "j" .load)] := by
  have h := loop_full_unrolling_fires false (.name 0 "j" .store)
    [.num 1, .num 2, .num 3]
    [.assign [.name 1 "x" .store] (.name 2 "j" .load)]
    [.assign [.name 1 "x" .store] (.name 2 "j" .load)]
    rfl rfl rfl rfl (by simp) (by decide)
  simpa using h

/-- Witness for the amended C5 at a concrete input: an OpenMP-annotated
loop over a literal list is kept. -/
theorem loop_full_unrolling_skips_witness :
    unrollStmt (.forStmt true (.name 0 "i" .store) (.listE [.num 1])
        [Stmt.passStmt]) =
      .ok [.forStmt true (.name 0 "i" .store) (.listE [.num 1])
        [Stmt.passStmt]] :=
  loop_full_unrolling_skips true (.name 0 "i" .store) (.listE [.num 1])
    [Stmt.passStmt] [Stmt.passStmt] rfl (Or.inl rfl)

/-- C5 counterexample: a loop whose iterable is not a literal list (so the
claim demands it be returned byte-for-byte unchanged) comes back with its
nested inner loop already unrolled by the recursive child visit. -/
theorem loop_full_unrolling_skips_cex :
    unrollStmt
      (.forStmt false (.name 0 "i" .store) (.name 9 "xs" .load)
        [.forStmt false (.name 1 "j" .store) (.listE [.num 5])
          [.exprStmt (.num 7)]]) =
      .ok [.forStmt false (.name 0 "i" .store) (.name 9 "xs" .load)
        [.assign [.name 1 "j" .store] (.num 5), .exprStmt (.num 7)]] ∧
    unrollStmt
      (.forStmt false (.name 0 "i" .store) (.name 9 "xs" .load)
        [.forStmt false (.name 1 "j" .store) (.listE [.num 5])
          [.exprStmt (.num 7)]]) ≠
      .ok [.forStmt false (.name 0 "i" .store) (.name 9 "xs" .load)
        [.forStmt false (.name 1 "j" .store) (.listE [.num 5])
          [.exprStmt (.num 7)]]] := by
  refine ⟨rfl, ?_⟩
  intro h
  have h2 : Except.ok (ε := Unit)
      [Stmt.forStmt false (.name 0 "i" .store) (.name 9 "xs" .load)
        [.assign [.name 1 "j" .store] (.num 5), .exprStmt (.num 7)]] =
      .ok [.forStmt false (.name 0 "i" .store) (.name 9 "xs" .load)
        [.forStmt false (.name 1 "j" .store) (.listE [.num 5])
          [.exprStmt (.num 7)]]] := by
    rw [← h]
    rfl
  simp at h2

theorem to_astList_length :
    ∀ (vs : List Value) (ns : List Expr),
      to_ast.to_astList vs = .ok ns → ns.length = vs.length
  | [], ns, h => by
      simp only [to_ast.to_astList] at h
      cases h
      rfl
  | v :: vs, ns, h => by
      rw [to_ast.to_astList] at h
      cases hv : to_ast v with
      | error e => rw [hv] at h; exact absurd h (by simp [Bind.bind, Except.bind])
      | ok n =>
          rw [hv] at h
          cases hl : to_ast.to_astList vs with
          | error e =>
              rw [hl] at h; exact absurd h (by simp [Bind.bind, Except.bind])
          | ok ms =>
              rw [hl] at h
              simp only [Bind.bind, Except.bind] at h
              cases h
              simp [to_astList_length vs ms hl]

theorem to_astPairs_length :
    ∀ (ps : List (Value × Value)) (kvs : List (Expr × Expr)),
      to_ast.to_astPairs ps = .ok kvs → kvs.length = ps.length
  | [], kvs, h => by
      simp only [to_ast.to_astPairs] at h
      cases h
      rfl
  | (k, v) :: ps, kvs, h => by
      rw [to_ast.to_astPairs] at h
      cases hk : to_ast k with
      | error e => rw [hk] at h; exact absurd h (by simp [Bind.bind, Except.bind])
      | ok nk =>
          rw [hk] at h
          cases hv : to_ast v with
          | error e =>
              rw [hv] at h; exact absurd h (by simp [Bind.bind, Except.bind])
          | ok nv =>
              rw [hv] at h
              cases hl : to_ast.to_astPairs ps with
              | error e =>
                  rw [hl] at h
                  exact absurd h (by simp [Bind.bind, Except.bind])
              | ok ms =>
                  rw [hl] at h
                  simp only [Bind.bind, Except.bind] at h
                  cases h
                  simp [to_astPairs_length ps ms hl]

theorem to_ast_smallContainers :
    ∀ v n, to_ast v = .ok n → smallContainers n = true := by
  apply to_ast.induct
    (motive_1 := fun vs => ∀ ns, to_ast.to_astList vs = .ok ns →
      smallContainersList ns = true)
    (motive_2 := fun v => ∀ n, to_ast v = .ok n →
      smallContainers n = true)
    (motive_3 := fun ps => ∀ kvs, to_ast.to_astPairs ps = .ok kvs →
      smallContainersList (kvs.map Prod.fst) = true ∧
      smallContainersList (kvs.map Prod.snd) = true)
  case _ =>
    intro n m h
    simp only [to_ast] at h
    cases h
    rfl
  case _ =>
    intro b m h
    simp only [to_ast] at h
    cases h
    cases b <;> rfl
  case _ =>
    intro st m h
    simp only [to_ast] at h
    cases h
    rfl
  case _ =>
    intro elts hlen ih m h
    rw [to_ast, if_pos hlen] at h
    cases hl : to_ast.to_astList elts with
    | error e => rw [hl] at h; exact absurd h (by simp [Bind.bind, Except.bind])
    | ok ns =>
        rw [hl] at h
        simp only [Bind.bind, Except.bind] at h
        cases h
        have hlen2 : ns.length < MAX_LEN := by
          rw [to_astList_length elts ns hl]; exact hlen
        simp [smallContainers, ih ns hl, hlen2]
  case _ =>
    intro elts hlen m h
    rw [to_ast, if_neg hlen] at h
    exact absurd h (by simp)
  case _ =>
    intro elts hlen ih m h
    rw [to_ast, if_pos hlen] at h
    cases hl : to_ast.to_astList elts with
    | error e => rw [hl] at h; exact absurd h (by simp [Bind.bind, Except.bind])
    | ok ns =>
        rw [hl] at h
        simp only [Bind.bind, Except.bind] at h
        cases h
        have hlen2 : ns.length < MAX_LEN := by
          rw [to_astList_length elts ns hl]; exact hlen
        simp [smallContainers, ih ns hl, hlen2]
  case _ =>
    intro elts hlen m h
    rw [to_ast, if_neg hlen] at h
    exact absurd h (by simp)
  case _ =>
    intro elts hlen ih m h
    rw [to_ast, if_pos hlen] at h
    cases hl : to_ast.to_astList elts with
    | error e => rw [hl] at h; exact absurd h (by simp [Bind.bind, Except.bind])
    | ok ns =>
        rw [hl] at h
        simp only [Bind.bind, Except.bind] at h
        cases h
        have hlen2 : ns.length < MAX_LEN := by
          rw [to_astList_length elts ns hl]; exact hlen
        simp [smallContainers, ih ns hl, hlen2]
  case _ =>
    intro elts hlen m h
    rw [to_ast, if_neg hlen] at h
    exact absurd h (by simp)
  case _ =>
    intro pairs hlen ih m h
    rw [to_ast, if_pos hlen] at h
    cases hl : to_ast.to_astPairs pairs with
    | error e => rw [hl] at h; exact absurd h (by simp [Bind.bind, Except.bind])
    | ok kvs =>
        rw [hl] at h
        simp only [Bind.bind, Except.bind] at h
        cases h
        have hlen2 : kvs.length = pairs.length :=
          to_astPairs_length pairs kvs hl
        obtain ⟨h1, h2⟩ := ih kvs hl
        simp [smallContainers, h1, h2, List.length_map, hlen2, hlen]
  case _ =>
    intro pairs hlen m h
    rw [to_ast, if_neg hlen] at h
    exact absurd h (by simp)
  case _ =>
    intro ns h
    simp only [to_ast.to_astList] at h
    cases h
    rfl
  case _ =>
    intro v vs ihv ihl ns h
    rw [to_ast.to_astList] at h
    cases hv : to_ast v with
    | error e => rw [hv] at h; exact absurd h (by simp [Bind.bind, Except.bind])
    | ok n =>
        rw [hv] at h
        cases hl : to_ast.to_astList vs with
        | error e =>
            rw [hl] at h; exact absurd h (by simp [Bind.bind, Except.bind])
        | ok ms =>
            rw [hl] at h
            simp only [Bind.bind, Except.bind] at h
            cases h
            simp [smallContainersList, ihv n hv, ihl ms hl]
  case _ =>
    intro kvs h
    simp only [to_ast.to_astPairs] at h
    cases h
    exact ⟨rfl, rfl⟩
  case _ =>
    intro k v ps ihk ihv ihl kvs h
    rw [to_ast.to_astPairs] at h
    cases hk : to_ast k with
    | error e => rw [hk] at h; exact absurd h (by simp [Bind.bind, Except.bind])
    | ok nk =>
        rw [hk] at h
        cases hv : to_ast v with
        | error e =>
            rw [hv] at h; exact absurd h (by simp [Bind.bind, Except.bind])
        | ok nv =>
            rw [hv] at h
            cases hl : to_ast.to_astPairs ps with
            | error e =>
                rw [hl] at h
                exact absurd h (by simp [Bind.bind, Except.bind])
            | ok ms =>
                rw [hl] at h
                simp only [Bind.bind, Except.bind] at h
                cases h
                obtain ⟨h1, h2⟩ := ihl ms hl
                simp [smallContainersList, ihk nk hk, ihv nv hv, h1, h2]

/-- C6: constant folding never builds a literal container node with
`MAX_LEN` (256) or more elements: every node produced by the value-to-node
conversion has only under-cap containers, and the conversion fails with
`ConversionError` on any container value whose size reaches the cap. -/
theorem folding_respects_size_cap :
    (∀ v n, to_ast v = .ok n → smallContainers n = true) ∧
    (∀ elts : List Value, MAX_LEN ≤ elts.length →
      to_ast (.listV elts) = .error () ∧
      to_ast (.tupleV elts) = .error () ∧
      to_ast (.setV elts) = .error ()) ∧
    (∀ pairs : List (Value × Value), MAX_LEN ≤ pairs.length →
      to_ast (.dictV pairs) = .error ()) := by
  refine ⟨to_ast_smallContainers, ?_, ?_⟩
  · intro elts hlen
    have h : ¬elts.length < MAX_LEN := not_lt.mpr hlen
    exact ⟨by rw [to_ast, if_neg h], by rw [to_ast, if_neg h],
      by rw [to_ast, if_neg h]⟩
  · intro pairs hlen
    have h : ¬pairs.length < MAX_LEN := not_lt.mpr hlen
    rw [to_ast, if_neg h]

set_option maxRecDepth 4000 in
/-- Witness for C6 at concrete inputs: a two-element list value converts to
an under-cap literal, and a 256-element list value is rejected. -/
theorem folding_respects_size_cap_witness :
    smallContainers (.listE [.num 2, .num 3]) = true ∧
    to_ast (.listV (List.replicate 256 (.numV 0))) = .error () :=
  ⟨folding_respects_size_cap.1 (.listV [.numV 2, .numV 3])
      (.listE [.num 2, .num 3]) rfl,
    (folding_respects_size_cap.2.1 (List.replicate 256 (.numV 0))
      (by simp [MAX_LEN])).1⟩

theorem constFold_eq_step (ce : Expr → Bool) (e : Expr) :
    constFold ce e = constFoldStep ce e (constFoldChildren ce e) := by
  cases e <;> rfl

/-- C7 (amended): when the fold attempt on a node flagged as a constant
expression fails (evaluation error, unsupported value kind, or over-cap
container), the failure is caught at that node: the node itself is not
replaced by a literal, but its children are still visited by the same
traversal and may individually fold; the pass continues and no exception
escapes (the engine is a total function). -/
theorem const_folding_failure_local (ce : Expr → Bool) (e : Expr)
    (hce : ce e = true)
    (hfail : (evalConst e).bind to_ast = .error ()) :
    constFold ce e = constFoldChildren ce e := by
  rw [constFold_eq_step]
  unfold constFoldStep
  rw [hce, hfail]
  rfl

/-- Witness for the amended C7 at a concrete input: a constant dict display
with one key and no value fails to evaluate, and the node keeps its shape
with children visited. -/
theorem const_folding_failure_local_witness :
    constFold isConstExpr (.dictE [.num 1] []) =
      constFoldChildren isConstExpr (.dictE [.num 1] []) :=
  const_folding_failure_local isConstExpr (.dictE [.num 1] []) rfl rfl

set_option maxRecDepth 8000 in
/-- C7 counterexample: a constant-flagged 257-element list evaluates fine
but fails conversion at the 256-element cap; the engine then still visits
the children, folding the embedded `1 + 2` to `3`, so the original subtree
is not left untouched as the claim states. -/
theorem const_folding_failure_not_untouched_cex :
    isConstExpr (.listE (.binOp (.num 1) .add (.num 2) ::
      List.replicate 256 (.num 0))) = true ∧
    (evalConst (.listE (.binOp (.num 1) .add (.num 2) ::
      List.replicate 256 (.num 0)))).bind to_ast = .error () ∧
    constFold isConstExpr (.listE (.binOp (.num 1) .add (.num 2) ::
      List.replicate 256 (.num 0))) =
      .listE (.num 3 :: List.replicate 256 (.num 0)) ∧
    constFold isConstExpr (.listE (.binOp (.num 1) .add (.num 2) ::
      List.replicate 256 (.num 0))) ≠
      .listE (.binOp (.num 1) .add (.num 2) ::
        List.replicate 256 (.num 0)) := by
  have h3 : constFold isConstExpr (.listE (.binOp (.num 1) .add (.num 2) ::
      List.replicate 256 (.num 0))) =
      .listE (.num 3 :: List.replicate 256 (.num 0)) := rfl
  refine ⟨rfl, rfl, h3, ?_⟩
  intro h
  have h4 := h3.symm.trans h
  simp at h4

theorem except_bind_ok {A B : Type} (x : Except Unit A) (f : A → Except Unit B)
    (b : B) (h : x.bind f = .ok b) : ∃ a, x = .ok a ∧ f a = .ok b := by
  cases x with
  | ok a => exact ⟨a, rfl, h⟩
  | error e => exact absurd h (by simp [Except.bind])

theorem to_ast_not_name (v : Value) (n : Expr) (h : to_ast v = .ok n) :
    isNameE n = false := by
  cases v with
  | numV i => cases h; rfl
  | boolV b => cases b <;> cases h <;> rfl
  | strV st => cases h; rfl
  | listV elts =>
      rw [to_ast] at h
      by_cases hlen : elts.length < MAX_LEN
      · rw [if_pos hlen] at h
        obtain ⟨ns, _, h2⟩ := except_bind_ok _ _ _ h
        cases h2
        rfl
      · rw [if_neg hlen] at h
        exact absurd h (by simp)
  | tupleV elts =>
      rw [to_ast] at h
      by_cases hlen : elts.length < MAX_LEN
      · rw [if_pos hlen] at h
        obtain ⟨ns, _, h2⟩ := except_bind_ok _ _ _ h
        cases h2
        rfl
      · rw [if_neg hlen] at h
        exact absurd h (by simp)
  | setV elts =>
      rw [to_ast] at h
      by_cases hlen : elts.length < MAX_LEN
      · rw [if_pos hlen] at h
        obtain ⟨ns, _, h2⟩ := except_bind_ok _ _ _ h
        cases h2
        rfl
      · rw [if_neg hlen] at h
        exact absurd h (by simp)
  | dictV pairs =>
      rw [to_ast] at h
      by_cases hlen : pairs.length < MAX_LEN
      · rw [if_pos hlen] at h
        obtain ⟨kvs, _, h2⟩ := except_bind_ok _ _ _ h
        cases h2
        rfl
      · rw [if_neg hlen] at h
        exact absurd h (by simp)

theorem to_ast_isConstExpr :
    ∀ v n, to_ast v = .ok n → isConstExpr n = true := by
  apply to_ast.induct
    (motive_1 := fun vs => ∀ ns, to_ast.to_astList vs = .ok ns →
      isConstExpr.isConstExprList ns = true)
    (motive_2 := fun v => ∀ n, to_ast v = .ok n → isConstExpr n = true)
    (motive_3 := fun ps => ∀ kvs, to_ast.to_astPairs ps = .ok kvs →
      isConstExpr.isConstExprList (kvs.map Prod.fst) = true ∧
      isConstExpr.isConstExprList (kvs.map Prod.snd) = true)
  case _ =>
    intro n m h
    cases h
    rfl
  case _ =>
    intro b m h
    cases b <;> cases h <;> rfl
  case _ =>
    intro st m h
    cases h
    rfl
  case _ =>
    intro elts hlen ih m h
    rw [to_ast, if_pos hlen] at h
    obtain ⟨ns, hl, h2⟩ := except_bind_ok _ _ _ h
    cases h2
    simpa [isConstExpr] using ih ns hl
  case _ =>
    intro elts hlen m h
    rw [to_ast, if_neg hlen] at h
    exact absurd h (by simp)
  case _ =>
    intro elts hlen ih m h
    rw [to_ast, if_pos hlen] at h
    obtain ⟨ns, hl, h2⟩ := except_bind_ok _ _ _ h
    cases h2
    simpa [isConstExpr] using ih ns hl
  case _ =>
    intro elts hlen m h
    rw [to_ast, if_neg hlen] at h
    exact absurd h (by simp)
  case _ =>
    intro elts hlen ih m h
    rw [to_ast, if_pos hlen] at h
    obtain ⟨ns, hl, h2⟩ := except_bind_ok _ _ _ h
    cases h2
    simpa [isConstExpr] using ih ns hl
  case _ =>
    intro elts hlen m h
    rw [to_ast, if_neg hlen] at h
    exact absurd h (by simp)
  case _ =>
    intro pairs hlen ih m h
    rw [to_ast, if_pos hlen] at h
    obtain ⟨kvs, hl, h2⟩ := except_bind_ok _ _ _ h
    cases h2
    obtain ⟨h3, h4⟩ := ih kvs hl
    simp [isConstExpr, h3, h4]
  case _ =>
    intro pairs hlen m h
    rw [to_ast, if_neg hlen] at h
    exact absurd h (by simp)
  case _ =>
    intro ns h
    cases h
    rfl
  case _ =>
    intro v vs ihv ihl ns h
    rw [to_ast.to_astList] at h
    obtain ⟨n, hv, h2⟩ := except_bind_ok _ _ _ h
    obtain ⟨ms, hl, h3⟩ := except_bind_ok _ _ _ h2
    cases h3
    simp [isConstExpr.isConstExprList, ihv n hv, ihl ms hl]
  case _ =>
    intro kvs h
    cases h
    exact ⟨rfl, rfl⟩
  case _ =>
    intro k v ps ihk ihv ihl kvs h
    rw [to_ast.to_astPairs] at h
    obtain ⟨nk, hk, h2⟩ := except_bind_ok _ _ _ h
    obtain ⟨nv, hv, h3⟩ := except_bind_ok _ _ _ h2
    obtain ⟨ms, hl, h4⟩ := except_bind_ok _ _ _ h3
    cases h4
    obtain ⟨h5, h6⟩ := ihl ms hl
    constructor
    · simp [isConstExpr.isConstExprList, ihk nk hk, h5]
    · simp [isConstExpr.isConstExprList, ihv nv hv, h6]

theorem evalConst_to_ast :
    ∀ v n, to_ast v = .ok n → evalConst n = .ok v := by
  apply to_ast.induct
    (motive_1 := fun vs => ∀ ns, to_ast.to_astList vs = .ok ns →
      evalConst.evalConstList ns = .ok vs)
    (motive_2 := fun v => ∀ n, to_ast v = .ok n → evalConst n = .ok v)
    (motive_3 := fun ps => ∀ kvs, to_ast.to_astPairs ps = .ok kvs →
      evalConst.evalConstList (kvs.map Prod.fst) = .ok (ps.map Prod.fst) ∧
      evalConst.evalConstList (kvs.map Prod.snd) = .ok (ps.map Prod.snd))
  case _ =>
    intro n m h
    cases h
    rfl
  case _ =>
    intro b m h
    cases b <;> cases h <;> rfl
  case _ =>
    intro st m h
    cases h
    rfl
  case _ =>
    intro elts hlen ih m h
    rw [to_ast, if_pos hlen] at h
    obtain ⟨ns, hl, h2⟩ := except_bind_ok _ _ _ h
    cases h2
    simp only [evalConst, ih ns hl, Bind.bind, Except.bind]
  case _ =>
    intro elts hlen m h
    rw [to_ast, if_neg hlen] at h
    exact absurd h (by simp)
  case _ =>
    intro elts hlen ih m h
    rw [to_ast, if_pos hlen] at h
    obtain ⟨ns, hl, h2⟩ := except_bind_ok _ _ _ h
    cases h2
    simp only [evalConst, ih ns hl, Bind.bind, Except.bind]
  case _ =>
    intro elts hlen m h
    rw [to_ast, if_neg hlen] at h
    exact absurd h (by simp)
  case _ =>
    intro elts hlen ih m h
    rw [to_ast, if_pos hlen] at h
    obtain ⟨ns, hl, h2⟩ := except_bind_ok _ _ _ h
    cases h2
    simp only [evalConst, ih ns hl, Bind.bind, Except.bind]
  case _ =>
    intro elts hlen m h
    rw [to_ast, if_neg hlen] at h
    exact absurd h (by simp)
  case _ =>
    intro pairs hlen ih m h
    rw [to_ast, if_pos hlen] at h
    obtain ⟨kvs, hl, h2⟩ := except_bind_ok _ _ _ h
    cases h2
    obtain ⟨h3, h4⟩ := ih kvs hl
    simp only [evalConst, h3, h4, Bind.bind, Except.bind, List.length_map,
      if_pos]
    rw [List.zip_map']
    simp
  case _ =>
    intro pairs hlen m h
    rw [to_ast, if_neg hlen] at h
    exact absurd h (by simp)
  case _ =>
    intro ns h
    cases h
    rfl
  case _ =>
    intro v vs ihv ihl ns h
    rw [to_ast.to_astList] at h
    obtain ⟨n, hv, h2⟩ := except_bind_ok _ _ _ h
    obtain ⟨ms, hl, h3⟩ := except_bind_ok _ _ _ h2
    cases h3
    simp only [evalConst.evalConstList, ihv n hv, ihl ms hl, Bind.bind,
      Except.bind]
  case _ =>
    intro kvs h
    cases h
    exact ⟨rfl, rfl⟩
  case _ =>
    intro k v ps ihk ihv ihl kvs h
    rw [to_ast.to_astPairs] at h
    obtain ⟨nk, hk, h2⟩ := except_bind_ok _ _ _ h
    obtain ⟨nv, hv, h3⟩ := except_bind_ok _ _ _ h2
    obtain ⟨ms, hl, h4⟩ := except_bind_ok _ _ _ h3
    cases h4
    obtain ⟨h5, h6⟩ := ihl ms hl
    constructor
    · simp only [List.map_cons, evalConst.evalConstList, ihk nk hk, h5,
        Bind.bind, Except.bind]
    · simp only [List.map_cons, evalConst.evalConstList, ihv nv hv, h6,
        Bind.bind, Except.bind]

/-- A literal node produced by `to_ast` is a fixpoint of the folding
traversal: re-running the engine re-evaluates it to the same value and the
conversion rebuilds the same node. -/
theorem constFold_to_ast_fixpoint (v : Value) (n : Expr)
    (h : to_ast v = .ok n) : constFold isConstExpr n = n := by
  rw [constFold_eq_step]
  unfold constFoldStep
  rw [to_ast_isConstExpr v n h]
  rw [show (evalConst n).bind to_ast = .ok n by
    rw [evalConst_to_ast v n h]
    simpa [Except.bind] using h]
  rfl

theorem isNameE_constFoldChildren (ce : Expr → Bool) (e : Expr) :
    isNameE (constFoldChildren ce e) = isNameE e := by
  cases e <;> rfl

theorem constFold_not_name (ce : Expr → Bool) (e : Expr)
    (he : isNameE e = false) : isNameE (constFold ce e) = false := by
  rw [constFold_eq_step]
  unfold constFoldStep
  by_cases hce : ce e = true
  · rw [hce]
    cases hbind : (evalConst e).bind to_ast with
    | ok n =>
        obtain ⟨v, _, hta⟩ := except_bind_ok _ _ _ hbind
        simpa using to_ast_not_name v n hta
    | error u => simpa [isNameE_constFoldChildren] using he
  · have hce' : ce e = false := by revert hce; cases ce e <;> simp
    rw [hce']
    simpa [isNameE_constFoldChildren] using he

theorem isConstExpr_attribute_not_name (v : Expr) (a : String) (cx : Ctx)
    (hv : isNameE v = false) : isConstExpr (.attribute v a cx) = false := by
  cases v <;> first
    | rfl
    | exact absurd hv (by simp [isNameE])

theorem evalConst_attribute_not_name (v : Expr) (a : String) (cx : Ctx)
    (hv : isNameE v = false) : evalConst (.attribute v a cx) = .error () := by
  cases v <;> first
    | rfl
    | exact absurd hv (by simp [isNameE])

theorem fold_node_step (e : Expr)
    (hA : evalConst (constFoldChildren isConstExpr e) = evalConst e)
    (hB : isConstExpr (constFoldChildren isConstExpr e) = isConstExpr e)
    (hC : constFoldChildren isConstExpr (constFoldChildren isConstExpr e) =
      constFoldChildren isConstExpr e) :
    evalConst (constFold isConstExpr e) = evalConst e ∧
    isConstExpr (constFold isConstExpr e) = isConstExpr e ∧
    constFold isConstExpr (constFold isConstExpr e) =
      constFold isConstExpr e := by
  by_cases hce : isConstExpr e = true
  · cases hbind : (evalConst e).bind to_ast with
    | ok n =>
        have hfold : constFold isConstExpr e = n := by
          rw [constFold_eq_step]
          unfold constFoldStep
          rw [hce, hbind]
          rfl
        obtain ⟨v, hv, hta⟩ := except_bind_ok _ _ _ hbind
        refine ⟨?_, ?_, ?_⟩
        · rw [hfold, evalConst_to_ast v n hta, hv]
        · rw [hfold, to_ast_isConstExpr v n hta, hce]
        · rw [hfold, constFold_to_ast_fixpoint v n hta]
    | error u =>
        have hfold : constFold isConstExpr e =
            constFoldChildren isConstExpr e := by
          rw [constFold_eq_step]
          unfold constFoldStep
          rw [hce, hbind]
          rfl
        have hstep2 : constFold isConstExpr (constFoldChildren isConstExpr e) =
            constFoldChildren isConstExpr (constFoldChildren isConstExpr e) := by
          rw [constFold_eq_step]
          unfold constFoldStep
          rw [hB, hce]
          rw [show (evalConst (constFoldChildren isConstExpr e)).bind to_ast =
            .error u by rw [hA, hbind]]
          rfl
        refine ⟨by rw [hfold, hA], by rw [hfold, hB], ?_⟩
        rw [hfold, hstep2, hC]
  · have hce' : isConstExpr e = false := by revert hce; cases isConstExpr e <;> simp
    have hfold : constFold isConstExpr e =
        constFoldChildren isConstExpr e := by
      rw [constFold_eq_step]
      unfold constFoldStep
      rw [hce']
      rfl
    have hstep2 : constFold isConstExpr (constFoldChildren isConstExpr e) =
        constFoldChildren isConstExpr (constFoldChildren isConstExpr e) := by
      rw [constFold_eq_step]
      unfold constFoldStep
      rw [hB, hce']
      rfl
    refine ⟨by rw [hfold, hA], by rw [hfold, hB], ?_⟩
    rw [hfold, hstep2, hC]

theorem constFold_triple :
    ∀ e, evalConst (constFold isConstExpr e) = evalConst e ∧
      isConstExpr (constFold isConstExpr e) = isConstExpr e ∧
      constFold isConstExpr (constFold isConstExpr e) =
        constFold isConstExpr e := by
  apply constFold.induct isConstExpr
    (motive_1 := fun e => evalConst (constFold isConstExpr e) = evalConst e ∧
      isConstExpr (constFold isConstExpr e) = isConstExpr e ∧
      constFold isConstExpr (constFold isConstExpr e) =
        constFold isConstExpr e)
    (motive_2 := fun es =>
      evalConst.evalConstList (constFoldList isConstExpr es) =
        evalConst.evalConstList es ∧
      isConstExpr.isConstExprList (constFoldList isConstExpr es) =
        isConstExpr.isConstExprList es ∧
      constFoldList isConstExpr (constFoldList isConstExpr es) =
        constFoldList isConstExpr es)
  case _ =>
    intro n
    exact fold_node_step _ rfl rfl rfl
  case _ =>
    intro st
    exact fold_node_step _ rfl rfl rfl
  case _ =>
    intro t i c
    exact fold_node_step _ rfl rfl rfl
  case _ =>
    intro v a c ih
    cases v <;> first
      | exact fold_node_step _ rfl rfl rfl
      | · refine fold_node_step _ ?_ ?_ ?_
          · simp only [constFoldChildren]
            rw [evalConst_attribute_not_name, evalConst_attribute_not_name] <;>
              first
                | rfl
                | exact constFold_not_name isConstExpr _ (by rfl)
          · simp only [constFoldChildren]
            rw [isConstExpr_attribute_not_name,
                isConstExpr_attribute_not_name] <;>
              first
                | rfl
                | exact constFold_not_name isConstExpr _ (by rfl)
          · simp only [constFoldChildren, ih.2.2]
  case _ =>
    intro l op r ihl ihr
    cases op
    refine fold_node_step _ ?_ ?_ ?_
    · simp only [constFoldChildren, evalConst, ihl.1, ihr.1]
    · simp only [constFoldChildren, isConstExpr, ihl.2.1, ihr.2.1]
    · simp only [constFoldChildren, ihl.2.2, ihr.2.2]
  case _ =>
    intro elts ih
    refine fold_node_step _ ?_ ?_ ?_
    · simp only [constFoldChildren, evalConst, ih.1]
    · simp only [constFoldChildren, isConstExpr, ih.2.1]
    · simp only [constFoldChildren, ih.2.2]
  case _ =>
    intro elts ih
    refine fold_node_step _ ?_ ?_ ?_
    · simp only [constFoldChildren, evalConst, ih.1]
    · simp only [constFoldChildren, isConstExpr, ih.2.1]
    · simp only [constFoldChildren, ih.2.2]
  case _ =>
    intro elts ih
    refine fold_node_step _ ?_ ?_ ?_
    · simp only [constFoldChildren, evalConst, ih.1]
    · simp only [constFoldChildren, isConstExpr, ih.2.1]
    · simp only [constFoldChildren, ih.2.2]
  case _ =>
    intro keys values ihks ihvs
    refine fold_node_step _ ?_ ?_ ?_
    · simp only [constFoldChildren, evalConst, ihks.1, ihvs.1]
    · simp only [constFoldChildren, isConstExpr, ihks.2.1, ihvs.2.1]
    · simp only [constFoldChildren, ihks.2.2, ihvs.2.2]
  case _ =>
    intro v ih
    refine fold_node_step _ ?_ ?_ ?_
    · simp only [constFoldChildren, evalConst]
    · simp only [constFoldChildren, isConstExpr]
    · simp only [constFoldChildren, ih.2.2]
  case _ =>
    exact fold_node_step _ rfl rfl rfl
  case _ =>
    exact ⟨rfl, rfl, rfl⟩
  case _ =>
    intro e es ihe ihl
    refine ⟨?_, ?_, ?_⟩
    · simp only [constFoldList, evalConst.evalConstList, ihe.1, ihl.1]
    · simp only [constFoldList, isConstExpr.isConstExprList, ihe.2.1,
        ihl.2.1]
    · simp only [constFoldList, ihe.2.2, ihl.2.2]

/-- C8: constant folding is idempotent — applying the folding pass to its
own output yields the same tree, for every statement tree.  With the
structurally recomputed constant-expression analysis, a literal produced by
a fold re-evaluates to the very node it already is, so the second pass is a
no-op. -/
theorem constant_folding_idempotent :
    ∀ st : Stmt, constFoldStmt isConstExpr (constFoldStmt isConstExpr st) =
      constFoldStmt isConstExpr st := by
  apply constFoldStmt.induct isConstExpr
    (motive_1 := fun st =>
      constFoldStmt isConstExpr (constFoldStmt isConstExpr st) =
        constFoldStmt isConstExpr st)
    (motive_2 := fun sts =>
      constFoldStmts isConstExpr (constFoldStmts isConstExpr sts) =
        constFoldStmts isConstExpr sts)
  case _ =>
    intro targets value
    simp only [constFoldStmt, (constFold_triple value).2.2]
    have : ∀ es, constFoldList isConstExpr (constFoldList isConstExpr es) =
        constFoldList isConstExpr es := by
      intro es
      induction es with
      | nil => rfl
      | cons e es ihes =>
          simp only [constFoldList, (constFold_triple e).2.2, ihes]
    rw [this]
  case _ =>
    intro v
    simp only [constFoldStmt, (constFold_triple v).2.2]
  case _ => rfl
  case _ =>
    intro omp t i body ih
    simp only [constFoldStmt, (constFold_triple t).2.2,
      (constFold_triple i).2.2, ih]
  case _ => rfl
  case _ => rfl
  case _ =>
    intro v
    simp only [constFoldStmt, (constFold_triple v).2.2]
  case _ => rfl
  case _ =>
    intro st sts ihs ihl
    simp only [constFoldStmts, ihs, ihl]

end Pythran
